import Mathlib

/-!
Verification of the tap-onsen voice-dictation core: the SSE stream decoders
(`src-tauri/src/ai/streaming.rs`), the provider clients (`src-tauri/src/ai/client.rs`),
the WAV encoder (`src-tauri/src/voice/format.rs`), the chunked transcription pipeline
(`src-tauri/src/voice/pipeline.rs`) and the recording state machine
(`src-tauri/src/commands/audio.rs`).

Rust `String` values are modelled as `List Char`; byte buffers as `List Nat`
(each element < 256); `f32`/`f64` sample and confidence values as exact
rationals (the operations the code performs on them — comparison, clamping,
scaling by an integer, truncation — are exact on the inputs of interest).
Network effects are modelled by passing the received byte chunks (respectively
the decoded response) as explicit data.
-/

namespace TapOnsen

/-- Character strings, as plain lists of characters (Rust `String` / `&str`). -/
abbrev Str := List Char

/-- Model of Rust `str::trim` on the left side: drop leading whitespace. -/
def trimLeft (l : Str) : Str := l.dropWhile Char.isWhitespace

/-- Model of Rust `str::trim` on the right side: drop trailing whitespace. -/
def trimRight (l : Str) : Str := (l.reverse.dropWhile Char.isWhitespace).reverse

/-- Model of Rust `str::trim` (`streaming.rs` line 56 / 108). -/
def trim (l : Str) : Str := trimRight (trimLeft l)

/-- Model of `extract_sse_data` (`streaming.rs` lines 37-39):
`line.strip_prefix("data: ")`. -/
def extract_sse_data (line : Str) : Option Str :=
  if "data: ".toList.isPrefixOf line then some (line.drop ("data: ".toList.length))
  else none

/-- Splitting of the internal text buffer into the complete (newline-terminated)
lines at its front and the trailing partial line, exactly as the
`while let Some(newline_pos) = buffer.find('\n')` loop of `streaming.rs`
(lines 55-57 / 107-109) extracts them. -/
def splitLines : Str → List Str × Str
  | [] => ([], [])
  | c :: cs =>
    let p := splitLines cs
    if c = '\n' then ([] :: p.1, p.2)
    else
      match p.1 with
      | [] => ([], c :: p.2)
      | l :: ls => ((c :: l) :: ls, p.2)

/-! ## JSON values and parsing

The decoders hand each `data: ` payload to `serde_json::from_str`.  `serde_json`
is an external library; we model the fragment the code exercises: a JSON value
grammar (with string escapes, including `\uXXXX` and surrogate pairs, and the
standard number grammar), parsed by a fuel-indexed recursive-descent parser that
must consume the whole input. -/

/-- JSON abstract syntax. Numbers keep their source characters; none of the
structs deserialized by the code reads a numeric field. -/
inductive JVal where
  | jnull
  | jbool (b : Bool)
  | jnum (lit : Str)
  | jstr (s : Str)
  | jarr (elems : List JVal)
  | jobj (fields : List (Str × JVal))

/-- Left curly bracket character (written via its code point). -/
def lbraceC : Char := Char.ofNat 123

/-- Right curly bracket character (written via its code point). -/
def rbraceC : Char := Char.ofNat 125

/-- JSON insignificant whitespace. -/
def jsonWs (c : Char) : Bool := c = ' ' || c = '\t' || c = '\n' || c = '\r'

/-- Skip insignificant whitespace. -/
def skipWs (l : Str) : Str := l.dropWhile jsonWs

/-- Value of one hexadecimal digit. -/
def hexVal (c : Char) : Option Nat :=
  if '0' ≤ c ∧ c ≤ '9' then some (c.toNat - '0'.toNat)
  else if 'a' ≤ c ∧ c ≤ 'f' then some (c.toNat - 'a'.toNat + 10)
  else if 'A' ≤ c ∧ c ≤ 'F' then some (c.toNat - 'A'.toNat + 10)
  else none

/-- Parse exactly four hexadecimal digits. -/
def hex4 : Str → Option (Nat × Str)
  | c1 :: c2 :: c3 :: c4 :: rest => do
    let v1 ← hexVal c1
    let v2 ← hexVal c2
    let v3 ← hexVal c3
    let v4 ← hexVal c4
    pure (((v1 * 16 + v2) * 16 + v3) * 16 + v4, rest)
  | _ => none

/-- Parse the body of a JSON string after the opening quote, handling the
escapes `serde_json` accepts (including surrogate pairs) and rejecting raw
control characters. -/
def pStr : Nat → Str → Option (Str × Str)
  | 0, _ => none
  | _ + 1, [] => none
  | fuel + 1, c :: rest =>
    if c = '"' then some ([], rest)
    else if c = '\\' then
      match rest with
      | [] => none
      | e :: r =>
        if e = '"' ∨ e = '\\' ∨ e = '/' then
          (pStr fuel r).map (fun p => (e :: p.1, p.2))
        else if e = 'n' then (pStr fuel r).map (fun p => ('\n' :: p.1, p.2))
        else if e = 't' then (pStr fuel r).map (fun p => ('\t' :: p.1, p.2))
        else if e = 'r' then (pStr fuel r).map (fun p => ('\r' :: p.1, p.2))
        else if e = 'b' then (pStr fuel r).map (fun p => (Char.ofNat 8 :: p.1, p.2))
        else if e = 'f' then (pStr fuel r).map (fun p => (Char.ofNat 12 :: p.1, p.2))
        else if e = 'u' then
          match hex4 r with
          | none => none
          | some (n, r1) =>
            if 0xD800 ≤ n ∧ n ≤ 0xDBFF then
              match r1 with
              | u1 :: u2 :: r2 =>
                if u1 = '\\' ∧ u2 = 'u' then
                  match hex4 r2 with
                  | some (m, r3) =>
                    if 0xDC00 ≤ m ∧ m ≤ 0xDFFF then
                      (pStr fuel r3).map (fun p =>
                        (Char.ofNat (0x10000 + (n - 0xD800) * 0x400 + (m - 0xDC00)) :: p.1, p.2))
                    else none
                  | none => none
                else none
              | _ => none
            else if 0xDC00 ≤ n ∧ n ≤ 0xDFFF then none
            else (pStr fuel r1).map (fun p => (Char.ofNat n :: p.1, p.2))
        else none
    else if c.toNat < 0x20 then none
    else (pStr fuel rest).map (fun p => (c :: p.1, p.2))

/-- Parse an optional JSON fraction part (a dot followed by at least one digit). -/
def pNumFrac (l : Str) : Option (Str × Str) :=
  match l with
  | '.' :: r =>
    match r.takeWhile Char.isDigit with
    | [] => none
    | ds => some ('.' :: ds, r.dropWhile Char.isDigit)
  | _ => some ([], l)

/-- Parse an optional JSON exponent part. -/
def pNumExp (l : Str) : Option (Str × Str) :=
  match l with
  | c :: r =>
    if c = 'e' ∨ c = 'E' then
      let sr : Str × Str :=
        match r with
        | s :: r2 => if s = '+' ∨ s = '-' then ([s], r2) else ([], r)
        | [] => ([], r)
      match sr.2.takeWhile Char.isDigit with
      | [] => none
      | ds => some (c :: (sr.1 ++ ds), sr.2.dropWhile Char.isDigit)
    else some ([], l)
  | [] => some ([], [])

/-- Parse a JSON number (optional minus, integer part without leading zeros,
optional fraction, optional exponent), returning its source characters. -/
def pNum (l : Str) : Option (Str × Str) := do
  let negRest : Str × Str :=
    match l with
    | '-' :: r => (['-'], r)
    | _ => ([], l)
  match negRest.2 with
  | [] => none
  | c :: r =>
    let intRest : Option (Str × Str) :=
      if c = '0' then some (['0'], r)
      else if c.isDigit then some (c :: r.takeWhile Char.isDigit, r.dropWhile Char.isDigit)
      else none
    match intRest with
    | none => none
    | some (ip, rest1) => do
      let (fp, rest2) ← pNumFrac rest1
      let (ep, rest3) ← pNumExp rest2
      pure (negRest.1 ++ ip ++ fp ++ ep, rest3)

mutual

/-- Parse one JSON value (fuel-indexed recursion; the fuel passed by
`jsonParse` always suffices). -/
def pVal : Nat → Str → Option (JVal × Str)
  | 0, _ => none
  | fuel + 1, l =>
    match skipWs l with
    | [] => none
    | c :: r =>
      if c = 'n' then
        match r with
        | 'u' :: 'l' :: 'l' :: r2 => some (.jnull, r2)
        | _ => none
      else if c = 't' then
        match r with
        | 'r' :: 'u' :: 'e' :: r2 => some (.jbool true, r2)
        | _ => none
      else if c = 'f' then
        match r with
        | 'a' :: 'l' :: 's' :: 'e' :: r2 => some (.jbool false, r2)
        | _ => none
      else if c = '"' then (pStr (2 * r.length + 2) r).map (fun p => (.jstr p.1, p.2))
      else if c = '[' then
        match skipWs r with
        | ']' :: r2 => some (.jarr [], r2)
        | r2 => pArrElems fuel r2 []
      else if c = lbraceC then
        match skipWs r with
        | b :: r2 =>
          if b = rbraceC then some (.jobj [], r2)
          else pObjFields fuel (b :: r2) []
        | [] => none
      else (pNum (c :: r)).map (fun p => (.jnum p.1, p.2))

/-- Parse the elements of a non-empty JSON array. -/
def pArrElems : Nat → Str → List JVal → Option (JVal × Str)
  | 0, _, _ => none
  | fuel + 1, l, acc =>
    match pVal fuel l with
    | none => none
    | some (v, r) =>
      match skipWs r with
      | ',' :: r2 => pArrElems fuel r2 (acc ++ [v])
      | ']' :: r2 => some (.jarr (acc ++ [v]), r2)
      | _ => none

/-- Parse the fields of a non-empty JSON object. -/
def pObjFields : Nat → Str → List (Str × JVal) → Option (JVal × Str)
  | 0, _, _ => none
  | fuel + 1, l, acc =>
    match skipWs l with
    | '"' :: r =>
      match pStr (2 * r.length + 2) r with
      | none => none
      | some (key, r1) =>
        match skipWs r1 with
        | ':' :: r2 =>
          match pVal fuel r2 with
          | none => none
          | some (v, r3) =>
            match skipWs r3 with
            | ',' :: r4 => pObjFields fuel r4 (acc ++ [(key, v)])
            | b :: r4 =>
              if b = rbraceC then some (.jobj (acc ++ [(key, v)]), r4) else none
            | [] => none
        | _ => none
    | _ => none

end

/-- Model of `serde_json::from_str`'s outer behaviour: parse one JSON value and
require that only whitespace follows it. -/
def jsonParse (l : Str) : Option JVal :=
  match pVal (2 * l.length + 2) l with
  | some (v, rest) => if skipWs rest = [] then some v else none
  | none => none

/-! ## Frame deserialization

Models of `serde_json::from_str::<OpenAIStreamResponse>` and
`serde_json::from_str::<AnthropicStreamEvent>` (`streaming.rs` lines 6-34),
composed with the field accesses the decoding loops perform.  serde ignores
unknown fields, requires non-`Option` fields, and maps a missing or `null`
`Option` field to `None`. -/

/-- Look up a field of a JSON object (first occurrence). -/
def jGet (fields : List (Str × JVal)) (key : Str) : Option JVal :=
  (fields.find? (fun f => decide (f.1 = key))).map (fun f => f.2)

/-- Deserialize one element of `choices` as `OpenAIChoice { delta: OpenAIDelta }`
with `OpenAIDelta { content: Option<String> }`, returning its `delta.content`. -/
def openaiParseChoice : JVal → Option (Option Str)
  | .jobj fs =>
    match jGet fs "delta".toList with
    | some (.jobj dfs) =>
      match jGet dfs "content".toList with
      | none => some none
      | some .jnull => some none
      | some (.jstr s) => some (some s)
      | some _ => none
    | _ => none
  | _ => none

/-- Model of `serde_json::from_str::<OpenAIStreamResponse>(data)` followed by
`parsed.choices.first().and_then(|c| c.delta.content)` (`streaming.rs` lines
74-76): `none` means the deserialization failed (the line is skipped); `some c`
means it succeeded and `c` is the content of the first choice, if any. -/
def openaiParseFrame (data : Str) : Option (Option Str) :=
  match jsonParse data with
  | some (.jobj fs) =>
    match jGet fs "choices".toList with
    | some (.jarr elems) =>
      match elems.mapM openaiParseChoice with
      | some cs =>
        match cs with
        | [] => some none
        | c :: _ => some c
      | none => none
    | _ => none
  | _ => none

/-- Model of `serde_json::from_str::<AnthropicStreamEvent>(data)`
(`streaming.rs` line 116): the result is the `type` discriminator together
with the optional `delta.text`. -/
def anthropicParseEvent (data : Str) : Option (Str × Option (Option Str)) :=
  match jsonParse data with
  | some (.jobj fs) =>
    match jGet fs "type".toList with
    | some (.jstr t) =>
      match jGet fs "delta".toList with
      | none => some (t, none)
      | some .jnull => some (t, none)
      | some (.jobj dfs) =>
        match jGet dfs "text".toList with
        | none => some (t, some none)
        | some .jnull => some (t, some none)
        | some (.jstr s) => some (t, some (some s))
        | some _ => none
      | some _ => none
    | _ => none
  | _ => none

/-! ## The SSE decoding loop -/

/-- Model of `StreamChunk` (`ai/mod.rs` lines 36-39). -/
structure StreamChunk where
  content : Str
  done : Bool
deriving DecidableEq, Repr

/-- Observable state of a decoding loop: the accumulated full text, the
sequence of events sent so far, and whether the loop has returned after
emitting the terminal event. -/
structure ObsSt where
  fullText : Str
  events : List StreamChunk
  finished : Bool
deriving DecidableEq, Repr

/-- Full decoder state: observables plus the internal line buffer. -/
structure DecSt where
  fullText : Str
  events : List StreamChunk
  finished : Bool
  buffer : Str
deriving DecidableEq, Repr

/-- Payload handlers: how a grammar reacts to the payload of one
`data: `-prefixed line. -/
abbrev Handler := ObsSt → Str → ObsSt

/-- The `[DONE]` sentinel of the OpenAI grammar. -/
def doneSentinel : Str := "[DONE]".toList

/-- Grammar-A payload handling (`streaming.rs` lines 63-87): the `[DONE]`
sentinel emits the terminal event and returns; otherwise a successfully parsed
frame whose first choice carries `content` appends it to the full text and
emits a non-terminal event; anything else is skipped. -/
def openaiPayload (st : ObsSt) (data : Str) : ObsSt :=
  if data = doneSentinel then
    { st with events := st.events ++ [⟨[], true⟩], finished := true }
  else
    match openaiParseFrame data with
    | some (some content) =>
      { st with fullText := st.fullText ++ content,
                events := st.events ++ [⟨content, false⟩] }
    | _ => st

/-- Grammar-B payload handling (`streaming.rs` lines 115-143):
`content_block_delta` with `delta.text` emits a non-terminal event;
`message_stop` emits the terminal event and returns; other event types and
malformed lines are skipped. -/
def anthropicPayload (st : ObsSt) (data : Str) : ObsSt :=
  match anthropicParseEvent data with
  | some ev =>
    if ev.1 = "content_block_delta".toList then
      match ev.2 with
      | some (some text) =>
        { st with fullText := st.fullText ++ text,
                  events := st.events ++ [⟨text, false⟩] }
      | _ => st
    else if ev.1 = "message_stop".toList then
      { st with events := st.events ++ [⟨[], true⟩], finished := true }
    else st
  | none => st

/-- Processing of one complete line (`streaming.rs` lines 56-87 / 108-143):
trim it, skip it if empty, otherwise extract the `data: ` payload and hand it
to the grammar handler; lines without the `data: ` marker are skipped. -/
def applyLine (h : Handler) (st : ObsSt) (line : Str) : ObsSt :=
  let t := trim line
  if t = [] then st
  else
    match extract_sse_data t with
    | some d => h st d
    | none => st

/-- One line step of the decoding loop; once the loop has returned (after the
terminal event) no further line is processed. -/
def stepLine (h : Handler) (o : ObsSt) (line : Str) : ObsSt :=
  if o.finished then o else applyLine h o line

/-- Processing of one network chunk (`streaming.rs` lines 50-88 / 103-144):
append the chunk text to the buffer, process every complete line and keep the
trailing partial line buffered. -/
def processChunk (h : Handler) (st : DecSt) (chunk : Str) : DecSt :=
  let p := splitLines (st.buffer ++ chunk)
  let o := p.1.foldl (stepLine h) ⟨st.fullText, st.events, st.finished⟩
  ⟨o.fullText, o.events, o.finished, p.2⟩

/-- Initial decoder state. -/
def initSt : DecSt := ⟨[], [], false, []⟩

/-- The decoding loop over a sequence of already-UTF-8-decoded network chunks.
The `Ok` return value of the Rust function is the `fullText` component; the
events sent to the channel are the `events` component in order. -/
def sse_decode (h : Handler) (chunks : List Str) : DecSt :=
  chunks.foldl (processChunk h) initSt

/-! ## UTF-8 decoding of network chunks

Each network chunk is a byte buffer turned into text by
`String::from_utf8_lossy` (`streaming.rs` lines 52 / 105), which replaces each
maximal invalid subpart with U+FFFD. -/

/-- Continuation byte test. -/
def isCont (b : Nat) : Prop := 0x80 ≤ b ∧ b ≤ 0xBF

instance (b : Nat) : Decidable (isCont b) := by unfold isCont; infer_instance

/-- Allowed second byte of a three-byte sequence (excludes overlong encodings
and surrogates, as Rust's UTF-8 validation does). -/
def cont3ok (b0 b1 : Nat) : Prop :=
  if b0 = 0xE0 then 0xA0 ≤ b1 ∧ b1 ≤ 0xBF
  else if b0 = 0xED then 0x80 ≤ b1 ∧ b1 ≤ 0x9F
  else isCont b1

instance (b0 b1 : Nat) : Decidable (cont3ok b0 b1) := by unfold cont3ok; infer_instance

/-- Allowed second byte of a four-byte sequence. -/
def cont4ok (b0 b1 : Nat) : Prop :=
  if b0 = 0xF0 then 0x90 ≤ b1 ∧ b1 ≤ 0xBF
  else if b0 = 0xF4 then 0x80 ≤ b1 ∧ b1 ≤ 0x8F
  else isCont b1

instance (b0 b1 : Nat) : Decidable (cont4ok b0 b1) := by unfold cont4ok; infer_instance

/-- Decode one UTF-8 scalar from the front of a byte list. -/
def utf8DecodeOne : List Nat → Option (Char × List Nat)
  | [] => none
  | b0 :: r0 =>
    if b0 < 0x80 then some (Char.ofNat b0, r0)
    else if 0xC2 ≤ b0 ∧ b0 ≤ 0xDF then
      match r0 with
      | b1 :: r1 =>
        if isCont b1 then some (Char.ofNat ((b0 - 0xC0) * 64 + (b1 - 0x80)), r1)
        else none
      | [] => none
    else if 0xE0 ≤ b0 ∧ b0 ≤ 0xEF then
      match r0 with
      | b1 :: b2 :: r2 =>
        if cont3ok b0 b1 ∧ isCont b2 then
          some (Char.ofNat ((b0 - 0xE0) * 4096 + (b1 - 0x80) * 64 + (b2 - 0x80)), r2)
        else none
      | _ => none
    else if 0xF0 ≤ b0 ∧ b0 ≤ 0xF4 then
      match r0 with
      | b1 :: b2 :: b3 :: r3 =>
        if cont4ok b0 b1 ∧ isCont b2 ∧ isCont b3 then
          some (Char.ofNat ((b0 - 0xF0) * 262144 + (b1 - 0x80) * 4096 +
                            (b2 - 0x80) * 64 + (b3 - 0x80)), r3)
        else none
      | _ => none
    else none

/-- Length of the maximal subpart replaced by one U+FFFD when decoding fails
at the front of the list (Rust `Utf8Error::error_len`, with the
incomplete-at-end-of-input case also consuming the valid partial sequence). -/
def utf8ErrLen : List Nat → Nat
  | [] => 1
  | b0 :: r0 =>
    if b0 < 0x80 then 1
    else if 0xC2 ≤ b0 ∧ b0 ≤ 0xDF then 1
    else if 0xE0 ≤ b0 ∧ b0 ≤ 0xEF then
      match r0 with
      | b1 :: _ => if cont3ok b0 b1 then 2 else 1
      | [] => 1
    else if 0xF0 ≤ b0 ∧ b0 ≤ 0xF4 then
      match r0 with
      | b1 :: b2 :: _ => if cont4ok b0 b1 then (if isCont b2 then 3 else 2) else 1
      | [b1] => if cont4ok b0 b1 then 2 else 1
      | [] => 1
    else 1

/-- The replacement character U+FFFD. -/
def replChar : Char := Char.ofNat 0xFFFD

/-- Fueled worker for `fromUtf8Lossy`; every step consumes at least one byte,
so fuel equal to the length suffices. -/
def lossyGo : Nat → List Nat → Str
  | 0, _ => []
  | _ + 1, [] => []
  | fuel + 1, l =>
    match utf8DecodeOne l with
    | some p => p.1 :: lossyGo fuel p.2
    | none => replChar :: lossyGo fuel (l.drop (utf8ErrLen l))

/-- Model of `String::from_utf8_lossy`. -/
def fromUtf8Lossy (l : List Nat) : Str := lossyGo l.length l

/-- Fueled strict UTF-8 decoding: `none` if the bytes are not valid UTF-8. -/
def decodeGo : Nat → List Nat → Option Str
  | _, [] => some []
  | 0, _ :: _ => none
  | fuel + 1, l =>
    match utf8DecodeOne l with
    | some p => (decodeGo fuel p.2).map (fun s => p.1 :: s)
    | none => none

/-- Strict UTF-8 decoding of a whole byte list. -/
def utf8Decode? (l : List Nat) : Option Str := decodeGo l.length l

/-- Valid-UTF-8 test for a byte list. -/
def validUtf8 (l : List Nat) : Bool := (utf8Decode? l).isSome

/-! ## The two stream decoders, end to end -/

/-- Model of `parse_openai_stream` (`streaming.rs` lines 42-92) applied to the
sequence of byte chunks delivered by the network: UTF-8-lossy-decode each
chunk, buffer, split into lines and run the Grammar-A loop.  The function's
`Ok` result is the `fullText` field; the events it sent are the `events`
field. -/
def parse_openai_stream (chunks : List (List Nat)) : DecSt :=
  sse_decode openaiPayload (chunks.map fromUtf8Lossy)

/-- Model of `parse_anthropic_stream` (`streaming.rs` lines 95-148), the
Grammar-B loop. -/
def parse_anthropic_stream (chunks : List (List Nat)) : DecSt :=
  sse_decode anthropicPayload (chunks.map fromUtf8Lossy)

/-- Bytes of an ASCII string. -/
def asciiBytes (s : Str) : List Nat := s.map Char.toNat

/-! ## Provider abstraction (`ai/mod.rs`, `ai/client.rs`) -/

/-- Model of `TokenUsage` (`ai/mod.rs` lines 51-55). -/
structure TokenUsage where
  prompt_tokens : Nat
  completion_tokens : Nat
  total_tokens : Nat
deriving DecidableEq, Repr

/-- Model of `AIResponse` (`ai/mod.rs` lines 43-47). -/
structure AIResponse where
  text : Str
  model : Str
  usage : Option TokenUsage
deriving DecidableEq, Repr

/-- Model of `AIError` (`ai/mod.rs` lines 12-18). -/
inductive AIError where
  | requestFailed (msg : Str)
  | apiKeyMissing (key : Str)
  | parseError (msg : Str)
  | timeout
  | streamError (msg : Str)
deriving DecidableEq, Repr

/-- Model of `VertexAIClient::process_stream` (`client.rs` lines 363-377).
The network interaction of `self.process(prompt)` is modelled by its result,
passed as data: on success a single terminal event wrapping the complete
response text is sent; on failure the error propagates and nothing is sent.
The second component is the list of events sent to the channel. -/
def vertex_process_stream (processResult : Except AIError AIResponse) :
    Except AIError Unit × List StreamChunk :=
  match processResult with
  | .error e => (.error e, [])
  | .ok response => (.ok (), [⟨response.text, true⟩])

/-! ## WAV encoding (`voice/format.rs`)

The byte layout is the one `hound::WavWriter` produces for the spec used by
the code (16-bit integer PCM): a RIFF header, a 16-byte `fmt ` chunk and a
`data` chunk holding the little-endian samples, 44 header bytes in total. -/

/-- Little-endian bytes of a 16-bit value. -/
def u16le (n : Nat) : List Nat := [n % 256, n / 256 % 256]

/-- Little-endian bytes of a 32-bit value. -/
def u32le (n : Nat) : List Nat :=
  [n % 256, n / 256 % 256, n / 65536 % 256, n / 16777216 % 256]

/-- Two's-complement little-endian bytes of an `i16` value. -/
def i16le (n : Int) : List Nat :=
  u16le (n % 65536).toNat

/-- Value of two little-endian bytes read as an `i16`
(`i16::from_le_bytes([b0, b1])`, `format.rs` line 78). -/
def i16OfLe (b0 b1 : Nat) : Int :=
  let u := b0 + 256 * b1
  if u < 32768 then (u : Int) else (u : Int) - 65536

/-- The WAV container layout written by `hound` for 16-bit integer PCM:
`RIFF` chunk (size `36 + data length`), `WAVE` form type, `fmt ` chunk of
16 bytes (PCM format tag 1, channel count, sample rate, byte rate, block
align, bits per sample 16) and the `data` chunk. -/
def wavBytes (dataBytes : List Nat) (sample_rate channels : Nat) : List Nat :=
  [82, 73, 70, 70] ++ u32le (36 + dataBytes.length) ++
  [87, 65, 86, 69] ++
  [102, 109, 116, 32] ++ u32le 16 ++
  u16le 1 ++ u16le channels ++ u32le sample_rate ++
  u32le (sample_rate * channels * 2) ++ u16le (channels * 2) ++ u16le 16 ++
  [100, 97, 116, 97] ++ u32le dataBytes.length ++ dataBytes

/-- Model of `VoiceError` (`voice/mod.rs` lines 22-35). -/
inductive VoiceError where
  | formatError (msg : Str)
  | apiError (msg : Str)
  | missingApiKey
  | pipelineError (msg : Str)
  | nativeError (msg : Str)
  | permissionDenied
deriving DecidableEq, Repr

/-- Rational truncation toward zero, the rounding Rust's `as i16` cast applies
to an in-range float. -/
def ratTrunc (q : ℚ) : Int := if q < 0 then -⌊-q⌋ else ⌊q⌋

/-- Model of `sample.clamp(-1.0, 1.0)` followed by `(clamped * i16::MAX as f32)
as i16` (`format.rs` lines 37-38): clamp to `[-1, 1]`, scale by 32767 and
truncate.  The `f32` sample is modelled as an exact rational. -/
def quantSample (q : ℚ) : Int := ratTrunc (max (-1) (min 1 q) * 32767)

/-- Whisper API sample rate constant (`format.rs` line 5). -/
def WHISPER_SAMPLE_RATE : Nat := 16000

/-- Mono channel constant (`format.rs` line 7). -/
def MONO_CHANNELS : Nat := 1

/-- Little-endian sample bytes of a quantized `f32` buffer (the loop of
`format.rs` lines 36-42, also performed at `commands/audio.rs` lines 227-231). -/
def pcmWavData (pcm_data : List ℚ) : List Nat :=
  (pcm_data.map (fun s => i16le (quantSample s))).flatten

/-- Model of `pcm_f32_to_wav` (`format.rs` lines 20-49): quantize every sample
to 16-bit PCM with silent clamping and wrap the little-endian sample bytes in
the WAV container.  On the modelled (always reachable) path the function
succeeds. -/
def pcm_f32_to_wav (pcm_data : List ℚ) (sample_rate channels : Nat) :
    Except VoiceError (List Nat) :=
  .ok (wavBytes (pcmWavData pcm_data) sample_rate channels)

/-- Non-overlapping byte pairs (`chunks_exact(2)`); any trailing odd byte is
dropped. -/
def bytePairs : List Nat → List (Nat × Nat)
  | b0 :: b1 :: rest => (b0, b1) :: bytePairs rest
  | _ => []

/-- Model of `pcm_bytes_to_wav` (`format.rs` lines 55-89): reject odd byte
counts with a `FormatError`, otherwise read the bytes as little-endian `i16`
samples and write them back into the WAV container. -/
def pcm_bytes_to_wav (raw_bytes : List Nat) (sample_rate channels : Nat) :
    Except VoiceError (List Nat) :=
  if raw_bytes.length % 2 ≠ 0 then
    .error (.formatError "PCM byte data length must be even (i16 samples)".toList)
  else
    .ok (wavBytes (((bytePairs raw_bytes).map
          (fun p => i16le (i16OfLe p.1 p.2))).flatten) sample_rate channels)

/-- The sample payload of a WAV container in the 16-bit integer PCM layout:
everything after the 44 header bytes. -/
def wavDataSection (wav : List Nat) : List Nat := wav.drop 44

/-! ## Transcription pipeline (`voice/pipeline.rs`) -/

/-- Model of `TranscriptionResult` (`voice/mod.rs` lines 13-18); the `f64`
confidence is modelled as an exact rational. -/
structure TranscriptionResult where
  text : Str
  confidence : ℚ
  is_final : Bool
  timestamp : Nat
deriving DecidableEq, Repr

/-- A speech backend (`SpeechRecognizer::transcribe`): from WAV bytes and a
language code to a result or an error. -/
abbrev Recognizer := List Nat → Str → Except VoiceError TranscriptionResult

/-- View of an `Except` value as a sum, for deciding equality. -/
def exceptToSum {ε α : Type} : Except ε α → ε ⊕ α
  | .error e => .inl e
  | .ok a => .inr a

instance {ε α : Type} [DecidableEq ε] [DecidableEq α] : DecidableEq (Except ε α) :=
  fun a b =>
    decidable_of_iff (exceptToSum a = exceptToSum b)
      (by cases a <;> cases b <;> simp [exceptToSum])

/-- Observable outcome of one `transcribe_chunked` run: the returned value,
the backend invocations in order (the WAV bytes and language of each call) and
the interim results passed to the callback in order. -/
structure ChunkRun where
  result : Except VoiceError TranscriptionResult
  calls : List (List Nat × Str)
  interim : List TranscriptionResult
deriving DecidableEq, Repr

/-- Fueled worker for `listChunks`; with positive chunk size every step
consumes at least one element, so fuel equal to the length suffices. -/
def listChunksGo : Nat → Nat → List ℚ → List (List ℚ)
  | _, _, [] => []
  | 0, _, _ :: _ => []
  | fuel + 1, n, l => l.take n :: listChunksGo fuel n (l.drop n)

/-- Model of `slice::chunks(n)`: split into consecutive sub-lists of `n`
elements, the last one possibly shorter.  (Rust panics for `n = 0`; the
claims about the pipeline assume a positive chunk size.) -/
def listChunks (n : Nat) (l : List ℚ) : List (List ℚ) :=
  if n = 0 then [] else listChunksGo l.length n l

/-- The loop body of `transcribe_chunked` (`pipeline.rs` lines 57-78), running
over the remaining chunks with the accumulated full text, last timestamp,
call log and interim log.  `is_last` holds exactly on the final chunk. -/
def chunkLoop (recognize : Recognizer) (language : Str) :
    List (List ℚ) → Str → Nat → List (List Nat × Str) → List TranscriptionResult → ChunkRun
  | [], fullText, lastTs, calls, interim =>
    ⟨.ok ⟨fullText, 1, true, lastTs⟩, calls, interim⟩
  | chunk :: rest, fullText, lastTs, calls, interim =>
    match pcm_f32_to_wav chunk WHISPER_SAMPLE_RATE MONO_CHANNELS with
    | .error e => ⟨.error e, calls, interim⟩
    | .ok wav_data =>
      match recognize wav_data language with
      | .error e => ⟨.error e, calls ++ [(wav_data, language)], interim⟩
      | .ok r0 =>
        let r := { r0 with is_final := rest.isEmpty }
        let ft :=
          if fullText ≠ [] ∧ r.text ≠ [] then fullText ++ ' ' :: r.text
          else fullText ++ r.text
        chunkLoop recognize language rest ft r.timestamp
          (calls ++ [(wav_data, language)]) (interim ++ [r])

/-- Model of `TranscriptionPipeline::transcribe_chunked` (`pipeline.rs` lines
47-86) for a pipeline with the given recognizer, chunk size and language:
split the samples into chunks, transcribe them strictly in order (the model's
recursion is sequential: each call's result feeds the accumulators of the
next) and aggregate. -/
def transcribe_chunked (recognize : Recognizer) (chunk_samples : Nat)
    (language : Str) (pcm_f32 : List ℚ) : ChunkRun :=
  chunkLoop recognize language (listChunks chunk_samples pcm_f32) [] 0 [] []

/-! ## Recording state machine (`commands/audio.rs`) -/

/-- Model of `AppError` (`error.rs`); the `Io` variant carries its message. -/
inductive AppError where
  | config (msg : Str)
  | audio (msg : Str)
  | ai (msg : Str)
  | fileSystem (msg : Str)
  | database (msg : Str)
  | ioErr (msg : Str)
deriving DecidableEq, Repr

/-- Model of `AudioInner` (`commands/audio.rs` lines 46-52): the shared
recording state.  The one-shot stop channel is modelled by whether a sender is
present. -/
structure AudioInner where
  is_recording : Bool
  buffer : List ℚ
  stop_tx : Bool
  sample_rate : Nat
  channels : Nat
deriving DecidableEq, Repr

/-- Model of `AudioState::new` (`commands/audio.rs` lines 55-65). -/
def audioStateNew : AudioInner := ⟨false, [], false, 0, 0⟩

/-- Model of `RecordingResult` (`commands/audio.rs` lines 34-39). -/
structure RecordingResult where
  audio_data : List Nat
  sample_rate : Nat
  channels : Nat
  duration_ms : Nat
deriving DecidableEq, Repr

/-- Everything the device layer and capture worker contribute to one
`start_recording` call: which failure occurred, or readiness with the
negotiated sample rate and channel count. -/
inductive StartOutcome where
  | noDevice
  | configFailed (msg : Str)
  | unsupportedFormat (msg : Str)
  | buildFailed (msg : Str)
  | playFailed (msg : Str)
  | timedOut
  | ready (sample_rate : Nat) (channels : Nat)
deriving DecidableEq, Repr

/-- Model of `start_recording` (`commands/audio.rs` lines 94-190): the guard
`if inner.is_recording` rejects a second session before any device work; on a
ready worker the state fields are set and recording begins; every failure
leaves the state untouched.  Returns the state after the call together with
the command result. -/
def start_recording (outcome : StartOutcome) (inner : AudioInner) :
    AudioInner × Except AppError Unit :=
  if inner.is_recording then
    (inner, .error (.audio "Already recording".toList))
  else
    match outcome with
    | .noDevice => (inner, .error (.audio "No input device available".toList))
    | .configFailed e =>
      (inner, .error (.audio ("Failed to get input config: ".toList ++ e)))
    | .unsupportedFormat f =>
      (inner, .error (.audio ("Unsupported sample format: ".toList ++ f)))
    | .buildFailed e =>
      (inner, .error (.audio ("Failed to build stream: ".toList ++ e)))
    | .playFailed e =>
      (inner, .error (.audio ("Failed to start stream: ".toList ++ e)))
    | .timedOut => (inner, .error (.audio "Recording thread timed out".toList))
    | .ready rate ch =>
      (⟨true, [], true, rate, ch⟩, .ok ())

/-- Model of `stop_recording` (`commands/audio.rs` lines 197-245): the guard
`if !inner.is_recording` rejects a stop while idle and leaves the state
untouched; otherwise the stop signal is sent, the buffer is drained once and
quantized to little-endian 16-bit PCM. -/
def stop_recording (inner : AudioInner) :
    AudioInner × Except AppError RecordingResult :=
  if inner.is_recording then
    let samples := inner.buffer
    let audio_data := pcmWavData samples
    let duration_ms :=
      if 0 < inner.sample_rate ∧ 0 < inner.channels then
        samples.length * 1000 / (inner.sample_rate * inner.channels)
      else 0
    ({ inner with is_recording := false, stop_tx := false, buffer := [] },
     .ok ⟨audio_data, inner.sample_rate, inner.channels, duration_ms⟩)
  else
    (inner, .error (.audio "Not recording".toList))

/-! ## Chunk-boundary invariance of the line buffering -/

/-- Concatenating input on the right of the buffer composes with line
splitting: the complete lines of `a ++ b` are the complete lines of `a`,
then — when `b` contains a newline — the line completed by joining the
leftover of `a` with the first line of `b`, then the remaining lines of `b`. -/
theorem splitLines_append (a b : Str) :
    splitLines (a ++ b) =
      match (splitLines b).1 with
      | [] => ((splitLines a).1, (splitLines a).2 ++ (splitLines b).2)
      | l :: ls =>
        ((splitLines a).1 ++ ((splitLines a).2 ++ l) :: ls, (splitLines b).2) := by
  induction a with
  | nil =>
    cases h : (splitLines b).1 <;> simp only [List.nil_append, splitLines, h] <;>
      rw [← h, Prod.mk.eta]
  | cons c a ih =>
    by_cases hc : c = '\n' <;>
      rcases h1 : (splitLines a).1 with _ | ⟨l0, ls0⟩ <;>
      rcases h2 : (splitLines b).1 with _ | ⟨l, ls⟩ <;>
      simp [splitLines, hc, ih, h1, h2]

/-- The trailing partial line kept in the buffer never contains a newline. -/
theorem splitLines_leftover_noNl (x : Str) : ∀ c ∈ (splitLines x).2, c ≠ '\n' := by
  induction x with
  | nil => simp [splitLines]
  | cons c cs ih =>
    by_cases hc : c = '\n' <;> rcases h1 : (splitLines cs).1 with _ | ⟨l0, ls0⟩ <;>
      simp_all [splitLines, hc, h1]

/-- A newline-free text splits into no complete line and itself as leftover. -/
theorem splitLines_noNl (l : Str) (h : ∀ c ∈ l, c ≠ '\n') : splitLines l = ([], l) := by
  induction l with
  | nil => rfl
  | cons c cs ih =>
    have hc : c ≠ '\n' := h c (by simp)
    have ihh := ih (fun x hx => h x (by simp [hx]))
    simp [splitLines, hc, ihh]

/-- Splitting the leftover again yields no complete line. -/
theorem splitLines_self_leftover (x : Str) :
    splitLines (splitLines x).2 = ([], (splitLines x).2) :=
  splitLines_noNl _ (splitLines_leftover_noNl x)

/-- Processing one chunk and then another is the same as processing their
concatenation: the decoding loop is insensitive to where the network splits
the text. -/
theorem processChunk_comp (h : Handler) (st : DecSt) (a b : Str) :
    processChunk h (processChunk h st a) b = processChunk h st (a ++ b) := by
  have hra := splitLines_self_leftover (st.buffer ++ a)
  have hA := splitLines_append (st.buffer ++ a) b
  have hB := splitLines_append ((splitLines (st.buffer ++ a)).2) b
  rw [hra] at hB
  rcases hb : (splitLines b).1 with _ | ⟨l, ls⟩ <;> simp only [hb] at hA hB <;>
    (simp only [processChunk, hB]; rw [← List.append_assoc, hA]; simp [List.foldl_append])

/-- Folding the decoder over a chunk list is processing the concatenation. -/
theorem foldl_processChunk (h : Handler) (cs : List Str) :
    ∀ (st : DecSt) (c0 : Str),
      cs.foldl (processChunk h) (processChunk h st c0) =
        processChunk h st (c0 ++ cs.flatten) := by
  induction cs with
  | nil => intro st c0; simp
  | cons c cs ih =>
    intro st c0
    simp only [List.foldl_cons, List.flatten_cons]
    rw [processChunk_comp, ih, List.append_assoc]

/-- The decoder output over a chunk sequence depends only on the concatenated
text. -/
theorem sse_decode_flatten (h : Handler) (chunks : List Str) :
    sse_decode h chunks = processChunk h initSt chunks.flatten := by
  cases chunks with
  | nil => rfl
  | cons c cs =>
    simp only [sse_decode, List.foldl_cons, List.flatten_cons]
    exact foldl_processChunk h cs initSt c

/-- Chunk-boundary invariance at the text level: two chunkings with the same
concatenation decode identically (same events, same full text, same final
buffer). -/
theorem sse_decode_invariance (h : Handler) (c1 c2 : List Str)
    (hf : c1.flatten = c2.flatten) : sse_decode h c1 = sse_decode h c2 := by
  rw [sse_decode_flatten, sse_decode_flatten, hf]

/-! ## Terminal-event discipline of the decoding loops -/

/-- An event is non-terminal when its `done` flag is false. -/
def nonterm (e : StreamChunk) : Bool := !e.done

/-- Invariant of the decoding loop: while the loop is running every sent event
is non-terminal; once it has returned, the event sequence is a run of
non-terminal events closed by a single terminal event. -/
def evOk (o : ObsSt) : Prop :=
  if o.finished then
    ∃ pre e, o.events = pre ++ [e] ∧ e.done = true ∧ pre.all nonterm = true
  else o.events.all nonterm = true

/-- The three things a line can do to the observable state: nothing, append a
non-terminal content event, or append the terminal event and finish. -/
def stepShape (o o' : ObsSt) : Prop :=
  o' = o ∨
  (o.finished = false ∧
    ((∃ c, o' = { o with fullText := o.fullText ++ c,
                         events := o.events ++ [⟨c, false⟩] }) ∨
     o' = { o with events := o.events ++ [⟨[], true⟩], finished := true }))

/-- A payload handler all of whose actions have the three-way shape. -/
def HandlerOk (h : Handler) : Prop :=
  ∀ (o : ObsSt) (d : Str), o.finished = false → stepShape o (h o d)

/-- The Grammar-A handler only skips, emits a content event, or finishes. -/
theorem openaiPayload_ok : HandlerOk openaiPayload := by
  intro o d hf
  unfold openaiPayload
  by_cases hd : d = doneSentinel
  · exact Or.inr ⟨hf, Or.inr (by simp [hd])⟩
  · rcases hp : openaiParseFrame d with _ | (_ | c) <;> simp only [hd, if_false, hp]
    · exact Or.inl rfl
    · exact Or.inl rfl
    · exact Or.inr ⟨hf, Or.inl ⟨c, rfl⟩⟩

/-- The Grammar-B handler only skips, emits a content event, or finishes. -/
theorem anthropicPayload_ok : HandlerOk anthropicPayload := by
  intro o d hf
  unfold anthropicPayload
  rcases hp : anthropicParseEvent d with _ | ⟨t, delta⟩
  · exact Or.inl rfl
  · simp only []
    by_cases h1 : t = "content_block_delta".toList
    · rcases delta with _ | (_ | text) <;> simp only [h1, if_true]
      · exact Or.inl rfl
      · exact Or.inl rfl
      · exact Or.inr ⟨hf, Or.inl ⟨text, rfl⟩⟩
    · by_cases h2 : t = "message_stop".toList <;> simp only [h1, h2, if_true, if_false]
      · exact Or.inr ⟨hf, Or.inr rfl⟩
      · exact Or.inl rfl

/-- One step preserves the invariant. -/
theorem evOk_of_step {o o' : ObsSt} (hs : stepShape o o') (hev : evOk o) : evOk o' := by
  rcases hs with rfl | ⟨hf, ⟨c, rfl⟩ | rfl⟩
  · exact hev
  · simp_all [evOk, nonterm, List.all_append]
  · unfold evOk at hev ⊢
    simp only [hf, Bool.false_eq_true, if_false] at hev
    simp only [if_true]
    exact ⟨o.events, ⟨[], true⟩, rfl, rfl, hev⟩

/-- Each line step of either loop has the three-way shape. -/
theorem stepLine_shape (h : Handler) (hok : HandlerOk h) (o : ObsSt) (line : Str) :
    stepShape o (stepLine h o line) := by
  unfold stepLine
  by_cases hf : o.finished
  · simp [hf, stepShape]
  · simp only [hf, if_false]
    unfold applyLine
    by_cases ht : trim line = []
    · simp [ht, stepShape]
    · simp only [ht, if_false]
      rcases he : extract_sse_data (trim line) with _ | d

      · exact Or.inl rfl
      · exact hok o d (by simpa using hf)

/-- Folding line steps preserves the invariant. -/
theorem foldl_evOk (h : Handler) (hok : HandlerOk h) (lines : List Str) :
    ∀ o : ObsSt, evOk o → evOk (lines.foldl (stepLine h) o) := by
  induction lines with
  | nil => intro o ho; exact ho
  | cons l ls ih =>
    intro o ho
    exact ih _ (evOk_of_step (stepLine_shape h hok o l) ho)

/-- The invariant read off a full decoder state. -/
def evOkD (st : DecSt) : Prop :=
  if st.finished then
    ∃ pre e, st.events = pre ++ [e] ∧ e.done = true ∧ pre.all nonterm = true
  else st.events.all nonterm = true

/-- Chunk processing preserves the invariant. -/
theorem processChunk_evOk (h : Handler) (hok : HandlerOk h) (st : DecSt)
    (chunk : Str) (hst : evOkD st) : evOkD (processChunk h st chunk) := by
  unfold processChunk evOkD
  exact foldl_evOk h hok _ _ hst

/-- Folding chunk processing preserves the invariant. -/
theorem foldl_processChunk_evOk (h : Handler) (hok : HandlerOk h)
    (chunks : List Str) :
    ∀ st : DecSt, evOkD st → evOkD (chunks.foldl (processChunk h) st) := by
  induction chunks with
  | nil => intro st hst; exact hst
  | cons c cs ih =>
    intro st hst
    exact ih _ (processChunk_evOk h hok st c hst)

/-- The decoding loop satisfies the invariant on every chunk sequence. -/
theorem sse_decode_evOk (h : Handler) (hok : HandlerOk h) (chunks : List Str) :
    evOkD (sse_decode h chunks) := by
  unfold sse_decode
  exact foldl_processChunk_evOk h hok chunks initSt (by simp [evOkD, initSt, evOk])

/-! ## UTF-8 lemmas: valid chunks decode compositionally -/

/-- Decoding one scalar consumes at least one byte. -/
theorem utf8DecodeOne_length :
    ∀ {l : List Nat} {c : Char} {r : List Nat},
      utf8DecodeOne l = some (c, r) → r.length < l.length := by
  intro l c r h
  rcases l with _ | ⟨b0, _ | ⟨b1, _ | ⟨b2, _ | ⟨b3, t⟩⟩⟩⟩ <;>
    simp only [utf8DecodeOne] at h <;>
    (try split_ifs at h) <;> simp_all <;> omega

/-- Decoding one scalar only looks at the bytes it consumes, so appending more
input on the right changes nothing. -/
theorem utf8DecodeOne_append :
    ∀ {l m : List Nat} {c : Char} {r : List Nat},
      utf8DecodeOne l = some (c, r) → utf8DecodeOne (l ++ m) = some (c, r ++ m) := by
  intro l m c r h
  rcases l with _ | ⟨b0, _ | ⟨b1, _ | ⟨b2, _ | ⟨b3, t⟩⟩⟩⟩ <;>
    simp only [utf8DecodeOne, List.cons_append, List.nil_append] at h ⊢ <;>
    (try split_ifs at h ⊢) <;> simp_all <;>
    (try (rcases h with ⟨rfl, rfl⟩; simp))

/-- Strict decoding is insensitive to surplus fuel. -/
theorem decodeGo_congr :
    ∀ (f1 : Nat) (f2 : Nat) (l : List Nat), l.length ≤ f1 → l.length ≤ f2 →
      decodeGo f1 l = decodeGo f2 l := by
  intro f1
  induction f1 with
  | zero =>
    intro f2 l h1 _
    have : l = [] := List.eq_nil_of_length_eq_zero (Nat.le_zero.mp h1)
    subst this
    cases f2 <;> rfl
  | succ f1 ih =>
    intro f2 l h1 h2
    rcases l with _ | ⟨b, r⟩
    · cases f2 <;> rfl
    · rcases f2 with _ | f2
      · simp at h2
      · simp only [decodeGo]
        rcases hd : utf8DecodeOne (b :: r) with _ | ⟨c, rest⟩
        · rfl
        · have hlt := utf8DecodeOne_length hd
          simp only [List.length_cons] at hlt h1 h2
          show Option.map (fun s => c :: s) (decodeGo f1 rest) =
            Option.map (fun s => c :: s) (decodeGo f2 rest)
          exact congrArg _ (ih f2 rest (by omega) (by omega))

/-- Strict decoding of a list whose first scalar decodes. -/
theorem utf8Decode?_eq_some {l : List Nat} {c : Char} {r : List Nat}
    (hd : utf8DecodeOne l = some (c, r)) :
    utf8Decode? l = (utf8Decode? r).map (fun s => c :: s) := by
  rcases l with _ | ⟨b, t⟩
  · simp [utf8DecodeOne] at hd
  · show decodeGo (t.length + 1) (b :: t) = _
    simp only [decodeGo]
    rw [hd]
    have hlt := utf8DecodeOne_length hd
    simp only [List.length_cons] at hlt
    show Option.map (fun s => c :: s) (decodeGo t.length r) =
      Option.map (fun s => c :: s) (decodeGo r.length r)
    exact congrArg _ (decodeGo_congr t.length r.length r (by omega) le_rfl)

/-- Strict decoding of a list whose first scalar fails to decode. -/
theorem utf8Decode?_eq_none {l : List Nat} (hne : l ≠ [])
    (hd : utf8DecodeOne l = none) : utf8Decode? l = none := by
  rcases l with _ | ⟨b, t⟩
  · exact absurd rfl hne
  · show decodeGo (t.length + 1) (b :: t) = _
    simp only [decodeGo]
    rw [hd]

/-- Decoding a valid list followed by anything decodes the valid part first. -/
theorem utf8Decode?_append :
    ∀ (f : Nat) (a b : List Nat) (sa : Str), a.length ≤ f →
      utf8Decode? a = some sa →
      utf8Decode? (a ++ b) = (utf8Decode? b).map (fun s => sa ++ s) := by
  intro f
  induction f with
  | zero =>
    intro a b sa h1 h2
    have : a = [] := List.eq_nil_of_length_eq_zero (Nat.le_zero.mp h1)
    subst this
    simp only [utf8Decode?, decodeGo, Option.some.injEq] at h2
    subst h2
    simp [Option.map_id]
  | succ f ih =>
    intro a b sa h1 h2
    rcases a with _ | ⟨b0, r0⟩
    · simp only [utf8Decode?, decodeGo, Option.some.injEq] at h2
      subst h2
      simp [Option.map_id]
    · rcases hd : utf8DecodeOne (b0 :: r0) with _ | ⟨c, rest⟩
      · rw [utf8Decode?_eq_none (by simp) hd] at h2; cases h2
      · rw [utf8Decode?_eq_some hd] at h2
        rcases hr : utf8Decode? rest with _ | s0
        · rw [hr] at h2; cases h2
        · rw [hr, Option.map_some'] at h2
          obtain rfl : c :: s0 = sa := Option.some.inj h2
          have hlt := utf8DecodeOne_length hd
          simp only [List.length_cons] at hlt h1
          have hrec := ih rest b s0 (by omega) hr
          rw [utf8Decode?_eq_some (utf8DecodeOne_append hd), hrec]
          cases utf8Decode? b <;> simp

/-- The maximal-subpart length is positive. -/
theorem utf8ErrLen_pos (l : List Nat) : 1 ≤ utf8ErrLen l := by
  rcases l with _ | ⟨b0, _ | ⟨b1, _ | ⟨b2, r⟩⟩⟩ <;>
    simp only [utf8ErrLen] <;> (try split_ifs) <;> omega

/-- Lossy decoding is insensitive to surplus fuel. -/
theorem lossyGo_congr :
    ∀ (f1 : Nat) (f2 : Nat) (l : List Nat), l.length ≤ f1 → l.length ≤ f2 →
      lossyGo f1 l = lossyGo f2 l := by
  intro f1
  induction f1 with
  | zero =>
    intro f2 l h1 _
    have : l = [] := List.eq_nil_of_length_eq_zero (Nat.le_zero.mp h1)
    subst this
    cases f2 <;> rfl
  | succ f1 ih =>
    intro f2 l h1 h2
    rcases l with _ | ⟨b, r⟩
    · cases f2 <;> rfl
    · rcases f2 with _ | f2
      · simp at h2
      · simp only [lossyGo]
        rcases hd : utf8DecodeOne (b :: r) with _ | ⟨c, rest⟩
        · have hpos := utf8ErrLen_pos (b :: r)
          have hdl : ((b :: r).drop (utf8ErrLen (b :: r))).length ≤ r.length := by
            simp only [List.length_drop, List.length_cons]
            omega
          simp only [List.length_cons] at h1 h2
          show replChar :: lossyGo f1 ((b :: r).drop (utf8ErrLen (b :: r))) =
            replChar :: lossyGo f2 ((b :: r).drop (utf8ErrLen (b :: r)))
          exact congrArg _ (ih f2 _ (by omega) (by omega))
        · have hlt := utf8DecodeOne_length hd
          simp only [List.length_cons] at hlt h1 h2
          show c :: lossyGo f1 rest = c :: lossyGo f2 rest
          exact congrArg _ (ih f2 rest (by omega) (by omega))

/-- Lossy decoding of a list whose first scalar decodes. -/
theorem fromUtf8Lossy_eq_some {l : List Nat} {c : Char} {r : List Nat}
    (hd : utf8DecodeOne l = some (c, r)) :
    fromUtf8Lossy l = c :: fromUtf8Lossy r := by
  rcases l with _ | ⟨b, t⟩
  · simp [utf8DecodeOne] at hd
  · show lossyGo (t.length + 1) (b :: t) = _
    simp only [lossyGo]
    rw [hd]
    have hlt := utf8DecodeOne_length hd
    simp only [List.length_cons] at hlt
    show c :: lossyGo t.length r = c :: lossyGo r.length r
    exact congrArg _ (lossyGo_congr t.length r.length r (by omega) le_rfl)

/-- On valid UTF-8 input, lossy decoding agrees with strict decoding. -/
theorem fromUtf8Lossy_of_valid :
    ∀ (f : Nat) (l : List Nat) (s : Str), l.length ≤ f →
      utf8Decode? l = some s → fromUtf8Lossy l = s := by
  intro f
  induction f with
  | zero =>
    intro l s h1 h2
    have : l = [] := List.eq_nil_of_length_eq_zero (Nat.le_zero.mp h1)
    subst this
    simp only [utf8Decode?, decodeGo, Option.some.injEq] at h2
    subst h2
    rfl
  | succ f ih =>
    intro l s h1 h2
    rcases l with _ | ⟨b, r⟩
    · simp only [utf8Decode?, decodeGo, Option.some.injEq] at h2
      subst h2
      rfl
    · rcases hd : utf8DecodeOne (b :: r) with _ | ⟨c, rest⟩
      · rw [utf8Decode?_eq_none (by simp) hd] at h2; cases h2
      · rw [utf8Decode?_eq_some hd] at h2
        rcases hr : utf8Decode? rest with _ | s0
        · rw [hr] at h2; cases h2
        · rw [hr, Option.map_some'] at h2
          obtain rfl : c :: s0 = s := Option.some.inj h2
          have hlt := utf8DecodeOne_length hd
          simp only [List.length_cons] at hlt h1
          rw [fromUtf8Lossy_eq_some hd, ih rest s0 (by omega) hr]

/-- The concatenation of valid chunks is valid, and decodes to the
concatenation of the chunkwise lossy decodings. -/
theorem utf8Decode?_flatten :
    ∀ (chunks : List (List Nat)), (∀ c ∈ chunks, validUtf8 c = true) →
      utf8Decode? chunks.flatten = some (chunks.map fromUtf8Lossy).flatten := by
  intro chunks
  induction chunks with
  | nil => intro _; rfl
  | cons c cs ih =>
    intro hv
    have hc : validUtf8 c = true := hv c (by simp)
    rcases hsc : utf8Decode? c with _ | sc
    · rw [validUtf8, hsc] at hc; cases hc
    · have hlossy := fromUtf8Lossy_of_valid c.length c sc le_rfl hsc
      have hrest := ih (fun x hx => hv x (by simp [hx]))
      simp only [List.flatten_cons, List.map_cons]
      rw [utf8Decode?_append c.length c cs.flatten sc le_rfl hsc, hrest, hlossy]
      rfl

/-! ## Line-level lemmas for malformed-frame tolerance -/

/-- A list a predicate-`dropWhile` leaves unchanged is empty or starts with a
character violating the predicate. -/
theorem head_false_of_dropWhile_eq {p : Char → Bool} {c : Char} {t : Str}
    (h : List.dropWhile p (c :: t) = c :: t) : p c = false := by
  by_contra hc
  have hp : p c = true := by simpa using hc
  rw [List.dropWhile_cons, if_pos hp] at h
  have hsub := (List.dropWhile_suffix (l := t) p).sublist.length_le
  rw [h] at hsub
  simp at hsub

/-- Appending on the left does not disturb a right-trim-invariant non-empty
text. -/
theorem trimRight_append (l m : Str) (hm : trimRight m = m) (hne : m ≠ []) :
    trimRight (l ++ m) = l ++ m := by
  have hrev : List.dropWhile Char.isWhitespace m.reverse = m.reverse := by
    have := congrArg List.reverse hm
    rwa [trimRight, List.reverse_reverse] at this
  rcases hmr : m.reverse with _ | ⟨c, t⟩
  · exact absurd (by simpa using congrArg List.reverse hmr) hne
  · rw [hmr] at hrev
    have hc := head_false_of_dropWhile_eq hrev
    have hm2 : m = t.reverse ++ [c] := by
      have := congrArg List.reverse hmr
      simpa using this
    rw [trimRight, List.reverse_append, hmr]
    rw [show (c :: t) ++ l.reverse = c :: (t ++ l.reverse) from rfl]
    rw [List.dropWhile_cons, if_neg (by simp [hc])]
    simp [hm2]

/-- The `data: ` marker starts with a non-whitespace character, so left
trimming leaves a marked line unchanged. -/
theorem trimLeft_data (m : Str) :
    trimLeft ("data: ".toList ++ m) = "data: ".toList ++ m := by
  simp only [trimLeft]
  rw [show ("data: ".toList ++ m) = 'd' :: ("ata: ".toList ++ m) from rfl]
  rw [List.dropWhile_cons, if_neg (by simp)]

/-- Trimming a `data: `-marked line whose payload is right-trim-invariant and
non-empty gives the line back. -/
theorem trim_data (m : Str) (hm : trimRight m = m) (hne : m ≠ []) :
    trim ("data: ".toList ++ m) = "data: ".toList ++ m := by
  rw [trim, trimLeft_data]
  exact trimRight_append _ m hm hne

/-- The payload extracted from a `data: `-marked line is exactly the rest of
the line. -/
theorem extract_sse_data_append (m : Str) :
    extract_sse_data ("data: ".toList ++ m) = some m := by
  rw [extract_sse_data, if_pos, List.drop_left]
  rw [ List.isPrefixOf_iff_prefix]
  exact List.prefix_append _ _

/-- A failed JSON parse makes the Grammar-A frame deserialization fail. -/
theorem openaiParseFrame_none (m : Str) (h : jsonParse m = none) :
    openaiParseFrame m = none := by
  rw [openaiParseFrame, h]

/-- A line whose payload is malformed JSON (and is not the `[DONE]` sentinel)
leaves the Grammar-A loop state untouched. -/
theorem openaiPayload_skips (o : ObsSt) (m : Str) (hdone : m ≠ doneSentinel)
    (hbad : jsonParse m = none) : openaiPayload o m = o := by
  rw [openaiPayload, if_neg hdone, openaiParseFrame_none m hbad]

/-- A complete line followed by a newline is split off the front of the
buffer. -/
theorem splitLines_line (l rest : Str) (hl : ∀ c ∈ l, c ≠ '\n') :
    splitLines (l ++ '\n' :: rest) =
      (l :: (splitLines rest).1, (splitLines rest).2) := by
  rw [splitLines_append l ('\n' :: rest)]
  rw [splitLines_noNl l hl]
  rw [show splitLines ('\n' :: rest) =
        ([] :: (splitLines rest).1, (splitLines rest).2) by simp [splitLines]]
  simp

/-! ## Pipeline lemmas -/

/-- Chunking is insensitive to surplus fuel. -/
theorem listChunksGo_congr :
    ∀ (f1 : Nat) (f2 : Nat) (n : Nat) (l : List ℚ), n ≠ 0 →
      l.length ≤ f1 → l.length ≤ f2 → listChunksGo f1 n l = listChunksGo f2 n l := by
  intro f1
  induction f1 with
  | zero =>
    intro f2 n l _ h1 _
    have : l = [] := List.eq_nil_of_length_eq_zero (Nat.le_zero.mp h1)
    subst this
    cases f2 <;> rfl
  | succ f1 ih =>
    intro f2 n l hn h1 h2
    rcases l with _ | ⟨x, t⟩
    · cases f2 <;> rfl
    · rcases f2 with _ | f2
      · simp at h2
      · simp only [listChunksGo]
        simp only [List.length_cons] at h1 h2
        have hdl : ((x :: t).drop n).length ≤ t.length := by
          simp only [List.length_drop, List.length_cons]
          omega
        rw [ih f2 n _ hn (by omega) (by omega)]

/-- Unfolding: chunking the empty buffer yields no chunk. -/
theorem listChunks_nil (n : Nat) : listChunks n [] = [] := by
  rw [listChunks]
  split <;> rfl

/-- Unfolding: chunking a non-empty buffer with positive chunk size peels off
the first `n` samples. -/
theorem listChunks_pos (n : Nat) (l : List ℚ) (hn : n ≠ 0) (hl : l ≠ []) :
    listChunks n l = l.take n :: listChunks n (l.drop n) := by
  rcases l with _ | ⟨x, t⟩
  · exact absurd rfl hl
  · rw [listChunks, listChunks, if_neg hn, if_neg hn]
    simp only [List.length_cons, listChunksGo]
    have hdl : ((x :: t).drop n).length ≤ t.length := by
      simp only [List.length_drop, List.length_cons]
      omega
    rw [listChunksGo_congr t.length ((x :: t).drop n).length n _ hn (by omega) le_rfl]

/-- A buffer of exactly twice the chunk size splits into exactly two chunks of
equal length. -/
theorem listChunks_double (cs : Nat) (pcm : List ℚ) (hn : cs ≠ 0)
    (hl : pcm.length = 2 * cs) :
    listChunks cs pcm = [pcm.take cs, pcm.drop cs] := by
  have h1 : pcm ≠ [] := by
    intro h
    rw [h] at hl
    simp at hl
    omega
  rw [listChunks_pos cs pcm hn h1]
  have hd : (pcm.drop cs).length = cs := by
    simp [List.length_drop]
    omega
  have h2 : pcm.drop cs ≠ [] := by
    intro h
    rw [h] at hd
    simp at hd
    omega
  rw [listChunks_pos cs _ hn h2]
  rw [List.take_of_length_le (le_of_eq hd)]
  rw [List.drop_eq_nil_of_le (le_of_eq hd), listChunks_nil]

/-- The WAV payload handed to the backend for one chunk. -/
def chunkWav (chunk : List ℚ) : List Nat :=
  wavBytes (pcmWavData chunk) WHISPER_SAMPLE_RATE MONO_CHANNELS

/-- Text aggregation of `transcribe_chunked`: single separating space, omitted
when either side is empty. -/
def spaceJoin (t1 t2 : Str) : Str :=
  if t1 ≠ [] ∧ t2 ≠ [] then t1 ++ ' ' :: t2 else t1 ++ t2

/-- Every successful `transcribe_chunked` run reports confidence exactly 1,
whatever the backend reported per chunk. -/
theorem chunkLoop_confidence (recognize : Recognizer) (language : Str) :
    ∀ (chunks : List (List ℚ)) (ft : Str) (ts : Nat)
      (calls : List (List Nat × Str)) (interim : List TranscriptionResult)
      (r : TranscriptionResult),
      (chunkLoop recognize language chunks ft ts calls interim).result = .ok r →
      r.confidence = 1 := by
  intro chunks
  induction chunks with
  | nil =>
    intro ft ts calls interim r h
    simp only [chunkLoop] at h
    cases h
    rfl
  | cons c cs ih =>
    intro ft ts calls interim r h
    simp only [chunkLoop, pcm_f32_to_wav] at h
    rcases hrec : recognize (wavBytes (pcmWavData c) WHISPER_SAMPLE_RATE MONO_CHANNELS)
        language with e | r0
    · rw [hrec] at h
      cases h
    · rw [hrec] at h
      exact ih _ _ _ _ _ h

/-! ## WAV round-trip lemmas -/

/-- Reading two bytes as an `i16` and writing the value back in little-endian
order reproduces the bytes exactly. -/
theorem i16le_i16OfLe (b0 b1 : Nat) (h0 : b0 < 256) (h1 : b1 < 256) :
    i16le (i16OfLe b0 b1) = [b0, b1] := by
  unfold i16le i16OfLe u16le
  by_cases hu : b0 + 256 * b1 < 32768
  · rw [if_pos hu]
    have hx : (((b0 + 256 * b1 : Nat) : Int) % 65536).toNat = b0 + 256 * b1 := by
      omega
    rw [hx]
    have e1 : (b0 + 256 * b1) % 256 = b0 := by omega
    have e2 : (b0 + 256 * b1) / 256 % 256 = b1 := by omega
    rw [e1, e2]
  · rw [if_neg hu]
    have hx : ((((b0 + 256 * b1 : Nat) : Int) - 65536) % 65536).toNat = b0 + 256 * b1 := by
      omega
    rw [hx]
    have e1 : (b0 + 256 * b1) % 256 = b0 := by omega
    have e2 : (b0 + 256 * b1) / 256 % 256 = b1 := by omega
    rw [e1, e2]

/-- Re-encoding every byte pair of an even-length in-range buffer reproduces
the buffer. -/
theorem pairs_roundtrip :
    ∀ (n : Nat) (bytes : List Nat), bytes.length ≤ n →
      (∀ b ∈ bytes, b < 256) → bytes.length % 2 = 0 →
      ((bytePairs bytes).map (fun p => i16le (i16OfLe p.1 p.2))).flatten = bytes := by
  intro n
  induction n with
  | zero =>
    intro bytes h1 _ _
    have : bytes = [] := List.eq_nil_of_length_eq_zero (Nat.le_zero.mp h1)
    subst this
    rfl
  | succ n ih =>
    intro bytes h1 hb hpar
    rcases bytes with _ | ⟨b0, _ | ⟨b1, rest⟩⟩
    · rfl
    · simp at hpar
    · simp only [bytePairs, List.map_cons, List.flatten_cons]
      rw [i16le_i16OfLe b0 b1 (hb b0 (by simp)) (hb b1 (by simp))]
      have hrec := ih rest (by simp at h1 ⊢; omega)
        (fun b hbm => hb b (by simp [hbm])) (by simp at hpar ⊢; omega)
      rw [hrec]
      rfl

/-- The sample payload sits after the 44 header bytes of the container. -/
theorem wavDataSection_wavBytes (data : List Nat) (rate ch : Nat) :
    wavDataSection (wavBytes data rate ch) = data := by
  rfl

/-- Little-endian `i16` samples read off a byte buffer (how a consumer decodes
the payload of the container). -/
def decodeSamplesLE (data : List Nat) : List Int :=
  (bytePairs data).map (fun p => i16OfLe p.1 p.2)

/-! ## Concrete frames and streams used in witnesses and counterexamples -/

/-- The Grammar-A frame carrying content `Hel` (spec section 8). -/
def frameHel : Str :=
  "data: \x7b\"choices\":[\x7b\"delta\":\x7b\"content\":\"Hel\"\x7d\x7d]\x7d".toList

/-- The Grammar-A frame carrying content `lo` (spec section 8). -/
def frameLo : Str :=
  "data: \x7b\"choices\":[\x7b\"delta\":\x7b\"content\":\"lo\"\x7d\x7d]\x7d".toList

/-- Bytes of a single complete `data: [DONE]` line. -/
def doneLine : List Nat := asciiBytes "data: [DONE]\n".toList

/-- Bytes of a single complete Grammar-A content frame line. -/
def helLine : List Nat := asciiBytes (frameHel ++ ['\n'])

/-- Bytes of a Grammar-A frame line up to the opening quote of the content. -/
def eAcutePre : List Nat :=
  asciiBytes "data: \x7b\"choices\":[\x7b\"delta\":\x7b\"content\":\"".toList

/-- Bytes of a Grammar-A frame line after the content: closing quote, closing
brackets and the newline. -/
def eAcutePost : List Nat := asciiBytes "\"\x7d\x7d]\x7d\n".toList

/-! ## Claim theorems -/

/-- Properties the decoding-loop invariant yields about any reachable state:
all events but possibly the last are non-terminal, and once the loop has
returned the sequence ends in its single terminal event. -/
theorem evOkD_props {st : DecSt} (h : evOkD st) :
    st.events.dropLast.all nonterm = true ∧
    (st.finished = true →
      ∃ pre e, st.events = pre ++ [e] ∧ e.done = true ∧ pre.all nonterm = true) := by
  unfold evOkD at h
  by_cases hf : st.finished = true
  · rw [if_pos (by simpa using hf)] at h
    obtain ⟨pre, e, he, hd, hall⟩ := h
    refine ⟨?_, fun _ => ⟨pre, e, he, hd, hall⟩⟩
    rw [he, List.dropLast_concat]
    exact hall
  · rw [if_neg (by simpa using hf)] at h
    refine ⟨?_, fun h2 => absurd h2 hf⟩
    rw [List.all_eq_true] at h ⊢
    intro x hx
    exact h x (List.dropLast_subset _ hx)

/-- C1 (amended): for every byte-chunk sequence, each of the two stream
decoders emits at most one terminal event, and nothing follows it: every
event except possibly the last is non-terminal, and when the loop returned
(a terminal frame occurred) the sequence ends in exactly one terminal event.
The non-streaming Vertex variant emits exactly the single terminal event
wrapping its complete response.  (A stream that ends without a terminal frame
produces no terminal event, so the original "exactly one" does not hold.) -/
theorem stream_terminal_discipline (chunks : List (List Nat)) :
    ((parse_openai_stream chunks).events.dropLast.all nonterm = true ∧
     ((parse_openai_stream chunks).finished = true →
       ∃ pre e, (parse_openai_stream chunks).events = pre ++ [e] ∧
         e.done = true ∧ pre.all nonterm = true)) ∧
    ((parse_anthropic_stream chunks).events.dropLast.all nonterm = true ∧
     ((parse_anthropic_stream chunks).finished = true →
       ∃ pre e, (parse_anthropic_stream chunks).events = pre ++ [e] ∧
         e.done = true ∧ pre.all nonterm = true)) ∧
    (∀ resp : AIResponse,
      (vertex_process_stream (.ok resp)).2 = [⟨resp.text, true⟩]) :=
  ⟨evOkD_props (sse_decode_evOk openaiPayload openaiPayload_ok _),
   evOkD_props (sse_decode_evOk anthropicPayload anthropicPayload_ok _),
   fun _ => rfl⟩

/-- Witness for C1: on the stream consisting of the single `data: [DONE]`
line, the decoder has finished and its event sequence is non-terminal events
closed by one terminal event. -/
theorem stream_terminal_discipline_witness :
    ∃ pre e, (parse_openai_stream [doneLine]).events = pre ++ [e] ∧
      e.done = true ∧ pre.all nonterm = true :=
  (stream_terminal_discipline [doneLine]).1.2 (by decide)

/-- Counterexample to C1 as stated: a stream that ends after one valid content
frame, without any terminal frame, emits one event and no terminal event at
all — the emitted sequence does not end in a terminal event. -/
theorem stream_terminal_counterexample :
    (parse_openai_stream [helLine]).events = [⟨"Hel".toList, false⟩] ∧
    (parse_openai_stream [helLine]).events.all nonterm = true ∧
    (parse_openai_stream [helLine]).events ≠ [] := by
  refine ⟨by decide, by decide, by decide⟩

/-- C2 (amended): the decoders are insensitive to chunk boundaries as long as
the boundaries respect UTF-8 character boundaries: two chunkings of the same
byte stream in which every chunk is valid UTF-8 produce identical decoder
results (same events, same returned full text, same final buffer). -/
theorem chunking_invariance (c1 c2 : List (List Nat))
    (h1 : ∀ c ∈ c1, validUtf8 c = true) (h2 : ∀ c ∈ c2, validUtf8 c = true)
    (hf : c1.flatten = c2.flatten) :
    parse_openai_stream c1 = parse_openai_stream c2 ∧
    parse_anthropic_stream c1 = parse_anthropic_stream c2 := by
  have e1 := utf8Decode?_flatten c1 h1
  have e2 := utf8Decode?_flatten c2 h2
  rw [hf, e2] at e1
  have key : (c1.map fromUtf8Lossy).flatten = (c2.map fromUtf8Lossy).flatten :=
    (Option.some.inj e1).symm
  exact ⟨sse_decode_invariance _ _ _ key, sse_decode_invariance _ _ _ key⟩

/-- Witness for C2: splitting the `data: [DONE]` line into two ASCII chunks
decodes exactly like receiving it whole. -/
theorem chunking_invariance_witness :
    parse_openai_stream [asciiBytes "data: [DO".toList, asciiBytes "NE]\n".toList] =
      parse_openai_stream [doneLine] ∧
    parse_anthropic_stream [asciiBytes "data: [DO".toList, asciiBytes "NE]\n".toList] =
      parse_anthropic_stream [doneLine] :=
  chunking_invariance _ _ (by decide) (by decide) (by decide)

/-- Counterexample to C2 as stated: the same byte stream carrying the content
`é` (bytes 195, 169) chunked at the middle of the character versus chunked
nowhere yields different events and different returned text — each half is
replaced by U+FFFD by the per-chunk lossy UTF-8 conversion. -/
theorem chunking_counterexample :
    ([eAcutePre ++ [195], [169] ++ eAcutePost] : List (List Nat)).flatten =
      ([eAcutePre ++ [195, 169] ++ eAcutePost] : List (List Nat)).flatten ∧
    parse_openai_stream [eAcutePre ++ [195], [169] ++ eAcutePost] ≠
      parse_openai_stream [eAcutePre ++ [195, 169] ++ eAcutePost] ∧
    (parse_openai_stream [eAcutePre ++ [195, 169] ++ eAcutePost]).fullText = ['é'] ∧
    (parse_openai_stream [eAcutePre ++ [195], [169] ++ eAcutePost]).fullText =
      [replChar, replChar] := by
  exact ⟨by decide, by decide, by decide, by decide⟩

/-- C4: a line carrying malformed JSON after the `data: ` marker, interleaved
between the two valid Grammar-A frames of spec section 8, is skipped without
an error and without ending the stream: both valid frames' events are emitted
and the aggregated text contains both contents.  The payload `m` is any
newline-free, right-trim-invariant, non-empty text other than the `[DONE]`
sentinel on which JSON parsing fails. -/
theorem malformed_line_skipped (m : Str) (hne : m ≠ []) (htr : trimRight m = m)
    (hnl : '\n' ∉ m) (hdone : m ≠ doneSentinel)
    (hbad : (jsonParse m).isNone = true) :
    sse_decode openaiPayload
      [frameHel ++ '\n' :: (("data: ".toList ++ m) ++ '\n' :: (frameLo ++ ['\n']))] =
      ⟨"Hello".toList, [⟨"Hel".toList, false⟩, ⟨"lo".toList, false⟩], false, []⟩ := by
  have hbad2 : jsonParse m = none := Option.isNone_iff_eq_none.mp hbad
  have hmidNl : ∀ c ∈ "data: ".toList ++ m, c ≠ '\n' := by
    intro c hc
    rcases List.mem_append.mp hc with h | h
    · exact (by decide : ∀ x ∈ "data: ".toList, x ≠ '\n') _ h
    · exact fun he => hnl (he ▸ h)
  have hsplit : splitLines (initSt.buffer ++
      (frameHel ++ '\n' :: (("data: ".toList ++ m) ++ '\n' :: (frameLo ++ ['\n'])))) =
      ([frameHel, "data: ".toList ++ m, frameLo], []) := by
    rw [show initSt.buffer = ([] : Str) from rfl, List.nil_append,
        splitLines_line frameHel _ (by decide),
        splitLines_line ("data: ".toList ++ m) _ hmidNl,
        splitLines_line frameLo _ (by decide)]
    rfl
  have hstep2 : stepLine openaiPayload
      ⟨"Hel".toList, [⟨"Hel".toList, false⟩], false⟩ ("data: ".toList ++ m) =
      ⟨"Hel".toList, [⟨"Hel".toList, false⟩], false⟩ := by
    rw [stepLine, if_neg (by decide)]
    rw [applyLine]
    simp only [trim_data m htr hne]
    rw [if_neg (by simp), extract_sse_data_append]
    exact openaiPayload_skips _ m hdone hbad2
  simp only [sse_decode, List.foldl_cons, List.foldl_nil]
  simp only [processChunk, hsplit]
  simp only [List.foldl_cons, List.foldl_nil]
  rw [show stepLine openaiPayload ⟨initSt.fullText, initSt.events, initSt.finished⟩ frameHel =
        ⟨"Hel".toList, [⟨"Hel".toList, false⟩], false⟩ by decide]
  rw [hstep2]
  rw [show stepLine openaiPayload ⟨"Hel".toList, [⟨"Hel".toList, false⟩], false⟩ frameLo =
        ⟨"Hello".toList, [⟨"Hel".toList, false⟩, ⟨"lo".toList, false⟩], false⟩ by decide]

/-- Witness for C4: the malformed payload `not json` between the two valid
frames is skipped and both events survive. -/
theorem malformed_line_skipped_witness :
    sse_decode openaiPayload
      [frameHel ++ '\n' :: (("data: ".toList ++ "not json".toList) ++ '\n' ::
        (frameLo ++ ['\n']))] =
      ⟨"Hello".toList, [⟨"Hel".toList, false⟩, ⟨"lo".toList, false⟩], false, []⟩ :=
  malformed_line_skipped "not json".toList (by decide) (by decide) (by decide)
    (by decide) (by decide)

/-- C3: over a buffer of exactly twice the chunk size, `transcribe_chunked`
invokes the backend exactly twice, in chunk order (the model's recursion is
strictly sequential: the second call appears after the first in the call log
and its accumulators depend on the first call's result), marks only the second
chunk's result `is_final`, and aggregates the text with one separating space,
omitted when either side is empty. -/
theorem transcribe_chunked_two (recognize : Recognizer) (cs : Nat)
    (language : Str) (pcm : List ℚ) (r1 r2 : TranscriptionResult)
    (hcs : 0 < cs) (hlen : pcm.length = 2 * cs)
    (h1 : recognize (chunkWav (pcm.take cs)) language = .ok r1)
    (h2 : recognize (chunkWav (pcm.drop cs)) language = .ok r2) :
    transcribe_chunked recognize cs language pcm =
      ⟨.ok ⟨spaceJoin r1.text r2.text, 1, true, r2.timestamp⟩,
       [(chunkWav (pcm.take cs), language), (chunkWav (pcm.drop cs), language)],
       [{ r1 with is_final := false }, { r2 with is_final := true }]⟩ ∧
    (r1.text ≠ [] → r2.text ≠ [] →
      spaceJoin r1.text r2.text = r1.text ++ ' ' :: r2.text) ∧
    (r1.text = [] → spaceJoin r1.text r2.text = r2.text) ∧
    (r2.text = [] → spaceJoin r1.text r2.text = r1.text) := by
  refine ⟨?_, ?_, ?_, ?_⟩
  · rw [transcribe_chunked, listChunks_double cs pcm (by omega) hlen]
    simp only [chunkWav] at h1 h2
    simp only [chunkLoop, pcm_f32_to_wav, h1, h2, List.isEmpty_cons,
      List.isEmpty_nil, spaceJoin]
    simp [chunkWav]
  · intro ha hb
    simp [spaceJoin, ha, hb]
  · intro ha
    simp [spaceJoin, ha]
  · intro hb
    simp [spaceJoin, hb]

/-- Witness backend for the pipeline claims: transcribes any payload to `a`
with confidence 0 and timestamp 7. -/
def wRecog : Recognizer := fun _ _ => .ok ⟨['a'], 0, false, 7⟩

/-- The result `wRecog` returns on every chunk. -/
def wr1 : TranscriptionResult := ⟨['a'], 0, false, 7⟩

/-- Witness buffer of 4 samples, twice the witness chunk size 2. -/
def wPcm : List ℚ := [0, 0, 0, 0]

/-- Witness for C3: on a 4-sample buffer with chunk size 2, exactly two
backend calls happen in order, only the second interim result is final, and
the texts are joined with one space. -/
theorem transcribe_chunked_two_witness :
    transcribe_chunked wRecog 2 [] wPcm =
      ⟨.ok ⟨spaceJoin wr1.text wr1.text, 1, true, wr1.timestamp⟩,
       [(chunkWav (wPcm.take 2), []), (chunkWav (wPcm.drop 2), [])],
       [{ wr1 with is_final := false }, { wr1 with is_final := true }]⟩ :=
  (transcribe_chunked_two wRecog 2 [] wPcm wr1 wr1 (by decide) (by decide)
    rfl rfl).1

/-- C5: `start_recording` called while a session is active fails with the
`Already recording` state error and leaves the state untouched, whatever the
device layer would have reported; `stop_recording` called while idle fails
with the `Not recording` state error and leaves the state untouched.  The
active-session flag is a single boolean in the one shared state, so at most
one session is active. -/
theorem recording_state_guards (inner : AudioInner) (outcome : StartOutcome) :
    (inner.is_recording = true →
      start_recording outcome inner =
        (inner, .error (.audio "Already recording".toList))) ∧
    (inner.is_recording = false →
      stop_recording inner = (inner, .error (.audio "Not recording".toList))) := by
  constructor
  · intro h
    rw [start_recording.eq_def, if_pos h]
  · intro h
    rw [stop_recording, if_neg (by simp [h])]

/-- Witness for C5: a second `start` on a recording state and a `stop` on the
freshly created idle state both fail with the state errors. -/
theorem recording_state_guards_witness :
    start_recording (.ready 44100 2) ⟨true, [], true, 16000, 1⟩ =
      (⟨true, [], true, 16000, 1⟩, .error (.audio "Already recording".toList)) ∧
    stop_recording audioStateNew =
      (audioStateNew, .error (.audio "Not recording".toList)) :=
  ⟨(recording_state_guards ⟨true, [], true, 16000, 1⟩ (.ready 44100 2)).1 rfl,
   (recording_state_guards audioStateNew (.ready 44100 2)).2 rfl⟩

/-- C6: for every sample buffer and positive sample rate and channel count the
encoder succeeds, its output starts with `RIFF` and carries `WAVE` at offset
8, and the output is the stated function of (samples, rate, channels) alone. -/
theorem pcm_f32_to_wav_header (pcm : List ℚ) (rate ch : Nat)
    (hr : 0 < rate) (hc : 0 < ch) :
    ∃ out, pcm_f32_to_wav pcm rate ch = .ok out ∧
      out.take 4 = asciiBytes "RIFF".toList ∧
      (out.drop 8).take 4 = asciiBytes "WAVE".toList ∧
      out = wavBytes (pcmWavData pcm) rate ch :=
  ⟨wavBytes (pcmWavData pcm) rate ch, rfl, rfl, rfl, rfl⟩

/-- Witness for C6: the spec's clamping example input encodes with the RIFF
and WAVE markers in place. -/
theorem pcm_f32_to_wav_header_witness :
    ∃ out, pcm_f32_to_wav [-2, 2, 1/2, -1/2] 16000 1 = .ok out ∧
      out.take 4 = asciiBytes "RIFF".toList ∧
      (out.drop 8).take 4 = asciiBytes "WAVE".toList ∧
      out = wavBytes (pcmWavData [-2, 2, 1/2, -1/2]) 16000 1 :=
  pcm_f32_to_wav_header [-2, 2, 1/2, -1/2] 16000 1 (by decide) (by decide)

/-- C7: for every even-length in-range byte buffer `pcm_bytes_to_wav`
succeeds, its sample payload reproduces the input bytes, so decoding the
payload as little-endian `i16` samples reproduces the original sample values
exactly (in particular within ±1 least-significant bit); every odd-length
buffer fails with the `FormatError`. -/
theorem pcm_bytes_to_wav_roundtrip (bytes : List Nat) (rate ch : Nat)
    (hb : ∀ b ∈ bytes, b < 256) :
    (bytes.length % 2 = 0 →
      ∃ out, pcm_bytes_to_wav bytes rate ch = .ok out ∧
        wavDataSection out = bytes ∧
        decodeSamplesLE (wavDataSection out) = decodeSamplesLE bytes ∧
        ∀ i : Nat, ((decodeSamplesLE (wavDataSection out)).getD i 0 -
          (decodeSamplesLE bytes).getD i 0).natAbs ≤ 1) ∧
    (bytes.length % 2 ≠ 0 →
      pcm_bytes_to_wav bytes rate ch =
        .error (.formatError
          "PCM byte data length must be even (i16 samples)".toList)) := by
  constructor
  · intro hpar
    refine ⟨wavBytes (((bytePairs bytes).map
        (fun p => i16le (i16OfLe p.1 p.2))).flatten) rate ch, ?_, ?_, ?_, ?_⟩
    · rw [pcm_bytes_to_wav, if_neg (by omega)]
    · rw [wavDataSection_wavBytes]
      exact pairs_roundtrip bytes.length bytes le_rfl hb hpar
    · rw [wavDataSection_wavBytes,
        pairs_roundtrip bytes.length bytes le_rfl hb hpar]
    · intro i
      rw [wavDataSection_wavBytes,
        pairs_roundtrip bytes.length bytes le_rfl hb hpar]
      simp
  · intro hpar
    rw [pcm_bytes_to_wav, if_pos (by omega)]

/-- Witness for C7: the even buffer `[0, 0, 255, 127]` round-trips exactly and
the odd buffer `[0, 1, 2]` is rejected. -/
theorem pcm_bytes_to_wav_roundtrip_witness :
    (∃ out, pcm_bytes_to_wav [0, 0, 255, 127] 16000 1 = .ok out ∧
      wavDataSection out = [0, 0, 255, 127] ∧
      decodeSamplesLE (wavDataSection out) = decodeSamplesLE [0, 0, 255, 127] ∧
      ∀ i : Nat, ((decodeSamplesLE (wavDataSection out)).getD i 0 -
        (decodeSamplesLE [0, 0, 255, 127]).getD i 0).natAbs ≤ 1) ∧
    pcm_bytes_to_wav [0, 1, 2] 16000 1 =
      .error (.formatError
        "PCM byte data length must be even (i16 samples)".toList) :=
  ⟨(pcm_bytes_to_wav_roundtrip [0, 0, 255, 127] 16000 1 (by decide)).1 (by decide),
   (pcm_bytes_to_wav_roundtrip [0, 1, 2] 16000 1 (by decide)).2 (by decide)⟩

/-- C8: when its underlying `process` call yields a response, the Vertex
variant's `process_stream` emits exactly one event, that event is terminal and
its content is the complete response text `process` produced, and the call
returns `Ok`. -/
theorem vertex_stream_single_terminal (resp : AIResponse) :
    vertex_process_stream (.ok resp) = (.ok (), [⟨resp.text, true⟩]) ∧
    (vertex_process_stream (.ok resp)).2.length = 1 ∧
    (vertex_process_stream (.ok resp)).2.all (fun e => e.done) = true :=
  ⟨rfl, rfl, rfl⟩

/-- C9: on the empty sample buffer, `transcribe_chunked` performs no backend
call, invokes no callback, and still returns `Ok` with empty text, confidence
1, `is_final` set and timestamp 0. -/
theorem transcribe_chunked_empty (recognize : Recognizer) (cs : Nat)
    (language : Str) (hcs : 0 < cs) :
    transcribe_chunked recognize cs language [] =
      ⟨.ok ⟨[], 1, true, 0⟩, [], []⟩ := by
  rw [transcribe_chunked, listChunks_nil]
  rfl

/-- Witness for C9: with the default 80000-sample chunk size the empty buffer
yields the empty successful result without consulting the backend. -/
theorem transcribe_chunked_empty_witness :
    transcribe_chunked wRecog 80000 [] [] = ⟨.ok ⟨[], 1, true, 0⟩, [], []⟩ :=
  transcribe_chunked_empty wRecog 80000 [] (by decide)

/-- C10: whenever `transcribe_chunked` returns `Ok` on a non-empty buffer, the
aggregated result's confidence is exactly 1, regardless of the confidences the
backend reported for the individual chunks. -/
theorem transcribe_chunked_confidence (recognize : Recognizer) (cs : Nat)
    (language : Str) (pcm : List ℚ) (r : TranscriptionResult)
    (hcs : 0 < cs) (hpcm : pcm ≠ [])
    (h : (transcribe_chunked recognize cs language pcm).result = .ok r) :
    r.confidence = 1 :=
  chunkLoop_confidence recognize language _ _ _ _ _ r h

/-- Witness for C10: the backend reports confidence 0 on each chunk, yet the
aggregated result carries confidence 1. -/
theorem transcribe_chunked_confidence_witness :
    (⟨['a', ' ', 'a'], 1, true, 7⟩ : TranscriptionResult).confidence = 1 :=
  transcribe_chunked_confidence wRecog 2 [] wPcm ⟨['a', ' ', 'a'], 1, true, 7⟩
    (by decide) (by decide) (by rfl)

end TapOnsen
